import Mathlib

/-!
Verification of the ECM (Lenstra elliptic curve method) factorization core.

This file gives a shallow embedding of the Rust sources
(src/lib.rs, src/arith/misc.rs, src/arith/modular_arithmetic.rs,
src/arith/montgomery_point.rs) and proves or refutes the frozen claims
about them.

Conventions of the embedding:
* rug `Integer` values are embedded as `ℤ`; `u64`/`u32`/`usize` values as `ℕ`.
* Machine arithmetic that can overflow in the source is embedded with an
  explicit `% 2^64` (resp. `% 2^32`); additions used only as loop indices,
  which stay far below `2^64` for any input the program can represent
  (the primes vector has length `b2 + 2*d + 1` as a `usize`), are embedded
  as plain `ℕ` additions.
* rug's truncated division/remainder (`div_rem`) is `Int.tdiv`/`Int.tmod`.
* Possibly nonterminating `while` loops are embedded with an explicit fuel
  argument; lemmas below show the fuel used by the callers is sufficient.
* The thread-shared `found_factor` flag and the per-worker RNG are embedded
  as oracle streams (`ff : ℕ → Bool`, `sigmaStream : ℕ → ℤ`): the claims
  proved here are quantified over every behaviour of flag and RNG.
-/

/-- The modulus of 64-bit machine arithmetic. -/
def U64 : ℕ := 2 ^ 64

/-- The modulus of 32-bit machine arithmetic. -/
def U32 : ℕ := 2 ^ 32

/-- Wrapping 64-bit subtraction, as performed by a release-mode `u64`
subtraction `x - y` for `x y < 2^64`. -/
def wsub64 (x y : ℕ) : ℕ := (x + (U64 - y % U64)) % U64

/-- The value list of the Rust iterator `(lo..hi).step_by st`. -/
def steps (lo hi st : ℕ) : List ℕ := List.range' lo ((hi - lo + st - 1) / st) st

/- ===== src/arith/modular_arithmetic.rs ===== -/

/-- Embeds `div_mod`: rug's `div_rem` is truncated division. -/
def div_mod (a modulo : ℤ) : ℤ × ℤ := (Int.tdiv a modulo, Int.tmod a modulo)

/-- Embeds `take_mod`: the truncated remainder, shifted into `[0, modulo)`
when negative. -/
def take_mod (a modulo : ℤ) : ℤ :=
  let rem := (div_mod a modulo).2
  if rem < 0 then rem + modulo else rem

/-- Embeds `multiply_mod`. -/
def multiply_mod (a b modulo : ℤ) : ℤ := take_mod (a * b) modulo

/-- Embeds `add_mod`. -/
def add_mod (a b modulo : ℤ) : ℤ := take_mod (a + b) modulo

/-- Embeds `subtract_mod`. -/
def subtract_mod (a b modulo : ℤ) : ℤ := take_mod (a - b) modulo

/-- Embeds `invert_mod`, which wraps rug's `invert_ref`.  rug's contract for
a positive modulus: the inverse exists iff `gcd(a, modulo) = 1`, and is
returned reduced into `[0, modulo)`.  The witness value is produced here via
Euler's theorem (`a^(φ(m)-1)` is an inverse of `a` when `gcd(a, m) = 1`);
the claims below depend only on the `some`/`none` split and never on the
numeric value of the inverse. -/
def invert_mod (a modulo : ℤ) : Option ℤ :=
  if Int.gcd a modulo = 1 then
    some (take_mod (a ^ (Nat.totient modulo.natAbs - 1)) modulo)
  else none

/-- Embeds `pow_mod` (exponent is a `u32` in the source). -/
def pow_mod (a : ℤ) (n : ℕ) (modulo : ℤ) : ℤ := take_mod (a ^ n) modulo

/- ===== src/arith/misc.rs ===== -/

/-- Embeds `eratosthenes` from src/arith/misc.rs.  The `Vec<bool>` is a
`List Bool`; in-bounds writes are `List.set`, in-bounds reads `List.getD`.
`f64::sqrt(limit as f64) as usize` equals `Nat.sqrt limit` for every limit
below `2^52`, where the `f64` conversion is exact. -/
def eratosthenes (primes : List Bool) (limit : ℕ) : List Bool :=
  let p0 := ((primes.set 0 false).set 1 false).set 2 true
  let slimit := Nat.sqrt limit
  (steps 3 slimit 2).foldl
    (fun v i =>
      if v.getD (i / 2) false then
        (steps (i * i) limit (2 * i)).foldl (fun w j => w.set (j / 2) false) v
      else v)
    p0

/-- Embeds `bits_amount` (bit length of a nonnegative rug `Integer`,
computed by repeated right shift). -/
def bits_amount : ℕ → ℕ
  | 0 => 0
  | n + 1 => bits_amount ((n + 1) / 2) + 1

/-- Embeds `bits_amount_u64` (same loop, on a `u64`). -/
def bits_amount_u64 : ℕ → ℕ
  | 0 => 0
  | n + 1 => bits_amount_u64 ((n + 1) / 2) + 1

/-- Embeds `randint`.  `Integer::random_bits(b, rand)` draws uniformly from
`[0, 2^b)`; the draw is abstracted into the argument `draw`, constrained by
callers to `draw < 2 ^ (bits_amount mx - bits_amount mn + 1)`.  Note the
source adds `min_bits` (the bit *length* of `min`), not `min` itself. -/
def randint (draw : ℕ) (mn : ℕ) (mx : ℕ) : ℕ := draw + bits_amount mn

/-- Embeds the inner `while yy >= d` loop of `integer_log`.  State is
`(yy, r, e, d, m)` with `d : u64` and `r : u64`, `e m : u32`; the wrapping
of `d * d`, `m * 2` and `e + m` is explicit.  The loop terminates because
`yy` strictly decreases (shown in the lemmas below); `fuel ≥ yy` suffices. -/
def ilog_inner (x : ℕ) : ℕ → ℕ → ℕ → ℕ → ℕ → ℕ → ℕ × ℕ × ℕ
  | 0, yy, r, e, _, _ => (yy, r, e)
  | fuel + 1, yy, r, e, d, m =>
    if d ≤ yy then
      let q := yy / d
      let rem := yy % d
      if d < q then
        ilog_inner x fuel q (r ||| rem) ((e + m) % U32) (d * d % U64) (m * 2 % U32)
      else
        ilog_inner x fuel q (r ||| rem) ((e + m) % U32) d m
    else (yy, r, e)

/-- Embeds the outer `while yy >= x` loop of `integer_log`; each iteration
re-enters the inner loop with `d = x`, `m = 1`.  `fuel ≥ yy` suffices. -/
def ilog_outer (x : ℕ) : ℕ → ℕ → ℕ → ℕ → ℕ × ℕ × ℕ
  | 0, yy, r, e => (yy, r, e)
  | fuel + 1, yy, r, e =>
    if x ≤ yy then
      let t := ilog_inner x yy yy r e x 1
      ilog_outer x fuel t.1 t.2.1 t.2.2
    else (yy, r, e)

/-- Embeds `integer_log` from src/arith/misc.rs.  The first match arm
returns `None` when `x == 1 || y == 0`; the second arm fires when
`(0..2).contains(&x)`, which after the first arm means `x = 0` (there
`x.pow(e)` cannot overflow, so it is a plain `ℕ` power). -/
def integer_log (y x : ℕ) : Option (ℕ × Bool) :=
  if x = 1 ∨ y = 0 then none
  else if x < 2 then
    let e := bits_amount_u64 y - 1
    some (e, decide (x ^ e = y))
  else
    let t := ilog_outer x y y 0 0
    some (t.2.2, decide (t.2.1 = 0 ∧ t.1 = 1))

/-- Embeds the `while n_copy > 1` loop of `fast_pow`, with the loop counter
already converted to `ℕ`: the source counter is a rug `Integer`, and for a
nonpositive counter the loop body never runs in either presentation.
Returns `acc * a`, the value produced after the loop. -/
def fast_pow_go (a acc : ℤ) (n : ℕ) : ℤ :=
  if h : 1 < n then
    if n % 2 = 0 then fast_pow_go (a * a) acc (n / 2)
    else fast_pow_go (a * a) (acc * a) ((n - 1) / 2)
  else acc * a
termination_by n
decreasing_by
  · exact Nat.div_lt_self (by omega) (by omega)
  · exact Nat.lt_of_le_of_lt (Nat.div_le_self _ _) (by omega)

/-- Embeds `fast_pow` from src/arith/misc.rs. -/
def fast_pow (a n : ℤ) : ℤ :=
  if a = 0 then 0 else fast_pow_go a 1 n.toNat

/- ===== src/arith/montgomery_point.rs ===== -/

/-- Embeds the `MontgomeryPoint` struct: projective coordinates `x`, `z`,
the curve constant `a24` and the modulus `modulo`, all rug `Integer`s. -/
structure MontgomeryPoint where
  x : ℤ
  z : ℤ
  a24 : ℤ
  modulo : ℤ
deriving DecidableEq, Repr

/-- Embeds `MontgomeryPoint::default()`: all fields `Integer::default() = 0`. -/
def MontgomeryPoint.default : MontgomeryPoint := ⟨0, 0, 0, 0⟩

/-- Embeds `MontgomeryPoint::new`. -/
def MontgomeryPoint.new (x z a24 modulo : ℤ) : MontgomeryPoint := ⟨x, z, a24, modulo⟩

/-- Embeds `MontgomeryPoint::new2`, which computes `a24 = (a+2) * 4⁻¹ mod n`.
The source unwraps the inverse of 4; the only call site reaches it when
`4*u³*v` is invertible mod `n`, hence so is 4, and the `getD` default is
never produced there. -/
def MontgomeryPoint.new2 (x z a modulo : ℤ) : MontgomeryPoint :=
  let inv := (invert_mod 4 modulo).getD 0
  ⟨x, z, multiply_mod (a + 2) inv modulo, modulo⟩

/-- Embeds `MontgomeryPoint::equals`.  In the source, the statement
`false;` inside the `if` comparing `modulo` and `a24` discards the value
`false` instead of returning it, so that check has no effect on the result;
the embedding therefore omits it.  Note also that the source reduces the
second ratio modulo `self.modulo`, not `other.modulo`. -/
def MontgomeryPoint.equals (p q : MontgomeryPoint) : Bool :=
  match invert_mod p.z p.modulo, invert_mod q.z q.modulo with
  | some pzinv, some qzinv =>
    multiply_mod p.x pzinv p.modulo == multiply_mod q.x qzinv p.modulo
  | _, _ => false

/-- Embeds `MontgomeryPoint::addh` (differential addition; `diff` is the
difference of the two summands). -/
def MontgomeryPoint.addh (p other diff : MontgomeryPoint) : MontgomeryPoint :=
  let self_x_min_z := subtract_mod p.x p.z p.modulo
  let self_x_plus_z := add_mod p.x p.z p.modulo
  let other_x_min_z := subtract_mod other.x other.z p.modulo
  let other_x_plus_z := add_mod other.x other.z p.modulo
  let prod1 := multiply_mod self_x_min_z other_x_plus_z p.modulo
  let prod2 := multiply_mod self_x_plus_z other_x_min_z p.modulo
  let addition := add_mod prod1 prod2 p.modulo
  let subtraction := subtract_mod prod1 prod2 p.modulo
  let sqr1 := multiply_mod addition addition p.modulo
  let sqr2 := multiply_mod subtraction subtraction p.modulo
  ⟨multiply_mod diff.z sqr1 p.modulo, multiply_mod diff.x sqr2 p.modulo, p.a24, p.modulo⟩

/-- Embeds `MontgomeryPoint::double`.  The squares `u`, `v` and the
difference `u - v` are plain integer operations in the source (only the
final products are reduced). -/
def MontgomeryPoint.double (p : MontgomeryPoint) : MontgomeryPoint :=
  let self_x_plus_z := add_mod p.x p.z p.modulo
  let self_x_min_z := subtract_mod p.x p.z p.modulo
  let u := self_x_plus_z * self_x_plus_z
  let v := self_x_min_z * self_x_min_z
  let diff := u - v
  ⟨multiply_mod u v p.modulo,
   take_mod (diff * (v + p.a24 * diff)) p.modulo,
   p.a24, p.modulo⟩

/-- Embeds `bits` for a nonnegative integer: the characters of the binary
representation `format!("{:b}", n)`, most significant first, as `Bool`s
(`'1' ↦ true`).  `format!` renders 0 as the single character `'0'`. -/
def natBits : ℕ → List Bool
  | 0 => [false]
  | 1 => [true]
  | n + 2 => natBits ((n + 2) / 2) ++ [decide ((n + 2) % 2 = 1)]
decreasing_by exact Nat.div_lt_self (by omega) (by omega)

/-- Embeds `bits` at the worker's call sites, where the scalar is a
nonnegative rug `Integer`. -/
def bits (k : ℤ) : List Bool := natBits k.toNat

/-- Embeds `MontgomeryPoint::montgomery_ladder`.  The loop runs over the
bit indices `1 .. bv.len()`; at a 1-bit the source executes
`q = p.addh(&q, &self); p = p.double();` (both right-hand sides read the
pre-assignment values), and symmetrically at a 0-bit. -/
def MontgomeryPoint.montgomery_ladder (p0 : MontgomeryPoint) (k : ℤ) : MontgomeryPoint :=
  (((bits k).drop 1).foldl
    (fun qp b =>
      if b then (qp.2.addh qp.1 p0, qp.2.double)
      else (qp.1.addh qp.2 p0, qp.1.double))
    (p0, p0.double)).1

/- ===== src/lib.rs ===== -/

/-- Result of one iteration of the curve loop in `inversionless_ecm`:
a factor was returned, the whole worker returned `None` (the
`integer_log`-failure arm), or the curve yielded nothing. -/
inductive CurveOutcome
  | factor (f : ℤ)
  | giveUp
  | noFactor
deriving DecidableEq, Repr

/-- Embeds the stage-1 exponent loop `for p_i in 2..(b1+1)` of
`inversionless_ecm`, over an explicit list of the loop indices:
`k *= fast_pow(p_i, a.0)` for each index with `primes[p_i]` set, and the
worker returns `None` if `integer_log` is undefined. -/
def stage1_go (primes : ℕ → Bool) (b1 : ℕ) (k : ℤ) : List ℕ → Option ℤ
  | [] => some k
  | p :: ps =>
    if primes p then
      match integer_log b1 p with
      | some a => stage1_go primes b1 (k * fast_pow (p : ℤ) ((a.1 : ℕ) : ℤ)) ps
      | none => none
    else stage1_go primes b1 k ps

/-- The stage-1 exponent `k` computed by the worker (the `u64` range
`2..(b1+1)` has `b1 - 1` elements). -/
def stage1_k (primes : ℕ → Bool) (b1 : ℕ) : Option ℤ :=
  stage1_go primes b1 1 (List.range' 2 (b1 - 1))

/-- Embeds the stage-2 table `points[idx]`: `points[1] = q.double()`,
`points[2] = points[1].double()`, and for `idx ≥ 3`
`points[idx] = points[idx-1].addh(&points[1], &points[idx-2])`.
The argument `p1` is `points[1]`; index 0 holds the untouched
`MontgomeryPoint::default()`. -/
def spoints (p1 : MontgomeryPoint) : ℕ → MontgomeryPoint
  | 0 => MontgomeryPoint.default
  | 1 => p1
  | 2 => p1.double
  | n + 3 => (spoints p1 (n + 2)).addh p1 (spoints p1 (n + 1))

/-- Embeds the inner stage-2 loop `for i in min..max` of the worker: for
each prime index the term
`f = (s.x - points[d].x) * (s.z + points[d].z) - alpha + beta[delta]`
is multiplied into the accumulator `g` modulo `n`. -/
def stage2_inner (n : ℤ) (primes : ℕ → Bool) (pd : MontgomeryPoint) (beta : ℕ → ℤ)
    (s : MontgomeryPoint) (alpha : ℤ) (r : ℕ) (g : ℤ) (idxs : List ℕ) : ℤ :=
  idxs.foldl
    (fun acc i =>
      if primes i then
        let delta := (i - r) / 2
        let f := (s.x - pd.x) * (s.z + pd.z) - alpha + beta delta
        multiply_mod acc f n
      else acc)
    g

/-- Embeds the giant-step loop `for r in (b..b2).step_by(2*d)` of stage 2,
folding over the list of giant-step values `r`; the state is the
accumulator `g` and the point pair `(s, t)`, updated via
`tmp = s; s = s.addh(&points[d], &t); t = tmp`. -/
def stage2_outer (n : ℤ) (primes : ℕ → Bool) (d : ℕ) (pd : MontgomeryPoint)
    (beta : ℕ → ℤ) (st : ℤ × MontgomeryPoint × MontgomeryPoint) (rs : List ℕ) :
    ℤ × MontgomeryPoint × MontgomeryPoint :=
  rs.foldl
    (fun acc r =>
      let g := acc.1
      let s := acc.2.1
      let t := acc.2.2
      let alpha := take_mod (s.x * s.z) n
      let g2 := stage2_inner n primes pd beta s alpha r g (steps (r + 2) (r + 2 * d + 1) 1)
      (g2, s.addh pd t, s))
    st

/-- The `u64` scalar `b - 2*d` fed to the ladder computing `t` in stage 2,
with `b = b1 - 1` and `d = ⌊√b2⌋`; both subtractions are wrapping `u64`
subtractions in release mode. -/
def stage2_t_multiplier (b1 b2 : ℕ) : ℕ :=
  wsub64 (wsub64 b1 1) (2 * Nat.sqrt b2 % U64)

/-- Embeds the body of one iteration of the curve loop of
`inversionless_ecm` (src/lib.rs lines 78-182), after the sigma for the
curve has been fixed. -/
def curve_attempt (n : ℤ) (primes : ℕ → Bool) (b1 b2 : ℕ) (sigma : ℤ) : CurveOutcome :=
  let v := multiply_mod 4 sigma n
  let u := subtract_mod (sigma * sigma) 5 n
  let diff := subtract_mod v u n
  let u_cubed := pow_mod u 3 n
  match invert_mod (4 * (u_cubed * v)) n with
  | none => CurveOutcome.factor ((Int.gcd (4 * (u_cubed * v)) n : ℕ) : ℤ)
  | some inv =>
    let c := take_mod (pow_mod diff 3 n * (3 * u + v) * inv - 2) n
    let q := MontgomeryPoint.new2 u_cubed (pow_mod v 3 n) c n
    match stage1_k primes b1 with
    | none => CurveOutcome.giveUp
    | some k =>
      let q1 := q.montgomery_ladder k
      let g1 := ((Int.gcd q1.z n : ℕ) : ℤ)
      if 1 < g1 ∧ g1 < n then CurveOutcome.factor g1
      else
        let d := Nat.sqrt b2
        let p1 := q1.double
        let beta := fun i => multiply_mod (spoints p1 i).x (spoints p1 i).z n
        let b := wsub64 b1 1
        let t0 := q1.montgomery_ladder ((stage2_t_multiplier b1 b2 : ℕ) : ℤ)
        let s0 := q1.montgomery_ladder ((b : ℕ) : ℤ)
        let res := stage2_outer n primes d (spoints p1 d) beta (1, s0, t0) (steps b b2 (2 * d))
        let g2 := ((Int.gcd res.1 n : ℕ) : ℤ)
        if 1 < g2 ∧ g2 < n then CurveOutcome.factor g2
        else CurveOutcome.noFactor

/-- Embeds the curve loop of `inversionless_ecm` in the case with no sigma
override: before each curve the worker checks the shared `found_factor`
flag (oracle `ff`, indexed by the curve number) and then draws a sigma
(oracle `sigmaStream`).  `fuel` bounds the number of curves tried: it is
the `max_curves` limit when one is given, and an arbitrary finite prefix
of the unbounded loop otherwise. -/
def ecm_loop (n : ℤ) (primes : ℕ → Bool) (b1 b2 : ℕ) (sigmaStream : ℕ → ℤ)
    (ff : ℕ → Bool) : ℕ → ℕ → Option ℤ
  | 0, _ => none
  | fuel + 1, idx =>
    if ff idx then none
    else
      match curve_attempt n primes b1 b2 (sigmaStream idx) with
      | CurveOutcome.factor f => some f
      | CurveOutcome.giveUp => none
      | CurveOutcome.noFactor => ecm_loop n primes b1 b2 sigmaStream ff fuel (idx + 1)

/-- Embeds `inversionless_ecm`.  When a sigma override is supplied the
source forces `infinite = false` and `limit = 0` inside the first
iteration, so exactly one curve runs (and none at all when
`max_curves = Some 0`, since `curve < limit` fails immediately). -/
def inversionless_ecm (n : ℤ) (max_curves : Option ℕ) (primes : ℕ → Bool)
    (b1 b2 : ℕ) (sigma : Option ℤ) (sigmaStream : ℕ → ℤ) (ff : ℕ → Bool)
    (fuel : ℕ) : Option ℤ :=
  match sigma with
  | some s =>
    if max_curves = some 0 then none
    else if ff 0 then none
    else
      match curve_attempt n primes b1 b2 s with
      | CurveOutcome.factor f => some f
      | _ => none
  | none =>
    let count := match max_curves with
      | some l => l
      | none => fuel
    ecm_loop n primes b1 b2 sigmaStream ff count 0

/-- Embeds `ecm_singlethreaded`: it allocates the sieve of length
`b2 + 2*d + 1` and calls the worker with thread number 0 and a fresh flag
(`ff` constantly false models the single-thread run; the RNG stream is
still abstract). -/
def ecm_singlethreaded (n : ℤ) (max_curves : Option ℕ) (b1 b2 : ℕ)
    (sigma : Option ℤ) (sigmaStream : ℕ → ℤ) (fuel : ℕ) : Option ℤ :=
  let d := Nat.sqrt b2
  let limit := b2 + 2 * d + 1
  let primes := eratosthenes (List.replicate limit true) limit
  inversionless_ecm n max_curves (fun i => primes.getD i false) b1 b2 sigma
    sigmaStream (fun _ => false) fuel

/- ===== General-purpose lemmas ===== -/

/-- Characterization used to evaluate `Nat.sqrt` on concrete inputs and to
bound it symbolically. -/
theorem nat_sqrt_eq_of (n m : ℕ) (h1 : m * m ≤ n) (h2 : n < (m + 1) * (m + 1)) :
    Nat.sqrt n = m := by
  have ha := Nat.le_sqrt.mpr h1
  have hb := Nat.sqrt_lt.mpr h2
  omega

/-- A bitwise-or of naturals vanishes iff both sides vanish. -/
theorem nat_lor_eq_zero_iff (m n : ℕ) : m ||| n = 0 ↔ m = 0 ∧ n = 0 := by
  constructor
  · intro h
    have hm : ∀ i, Nat.testBit m i = false := by
      intro i
      have h2 := congrArg (fun t => Nat.testBit t i) h
      simp only [Nat.testBit_lor, Nat.zero_testBit, Bool.or_eq_false_iff] at h2
      exact h2.1
    have hn : ∀ i, Nat.testBit n i = false := by
      intro i
      have h2 := congrArg (fun t => Nat.testBit t i) h
      simp only [Nat.testBit_lor, Nat.zero_testBit, Bool.or_eq_false_iff] at h2
      exact h2.2
    exact ⟨Nat.eq_of_testBit_eq (fun i => by simp [hm i]),
      Nat.eq_of_testBit_eq (fun i => by simp [hn i])⟩
  · rintro ⟨rfl, rfl⟩
    rfl

/- ===== Claim C2 ===== -/

/-- Claim C2 is refuted by the code: running `eratosthenes` on an all-true
vector of length 5 leaves index 4 set, although 4 is not prime.  The sieve
body marks composites at the halved index `j/2` (and tests candidates at
`i/2`) while the worker reads the vector at the raw index, so the resulting
vector is not the primality indicator the claim describes. -/
theorem eratosthenes_leaves_four_true :
    (eratosthenes (List.replicate 5 true) 5).getD 4 false = true ∧ ¬ Nat.Prime 4 := by
  have h5 : Nat.sqrt 5 = 2 := nat_sqrt_eq_of 5 2 (by norm_num) (by norm_num)
  refine ⟨?_, by norm_num⟩
  simp only [eratosthenes, h5]
  decide

/- ===== Claim C4 ===== -/

/-- Claim C4 is refuted by the code: `equals` returns `true` on two points
with the same coordinates and modulus but different `a24` constants,
because the source statement `false;` discards its value instead of
returning it. -/
theorem equals_true_despite_different_a24 :
    (MontgomeryPoint.new 1 1 0 5).equals (MontgomeryPoint.new 1 1 1 5) = true ∧
      (MontgomeryPoint.new 1 1 0 5).a24 ≠ (MontgomeryPoint.new 1 1 1 5).a24 := by
  decide

/- ===== Claim C5 ===== -/

/-- When the counter is not above 1 the loop body of `fast_pow` never runs
and the function returns `acc * a`. -/
theorem fast_pow_go_base (a acc : ℤ) (n : ℕ) (h : ¬ 1 < n) :
    fast_pow_go a acc n = acc * a := by
  rw [fast_pow_go]
  simp [h]

/-- Claim C5 counterexample: `fast_pow(2, 0)` returns 2, not 1 as the claim
states: for a nonzero base the loop is skipped and the function returns
`acc * a = a`. -/
theorem fast_pow_two_zero_ne_one : ¬ (fast_pow 2 0 = 1) := by
  rw [fast_pow]
  norm_num
  rw [fast_pow_go_base _ _ _ (by norm_num)]
  norm_num

/-- Claim C5 (amended): `fast_pow(0, n) = 0` for every n and
`fast_pow(a, 1) = a` for every a, as claimed; but at n = 0 the function
returns `a` (not 1): `fast_pow(a, 0) = a` for every a. -/
theorem fast_pow_edge_cases_amended :
    (∀ n : ℤ, fast_pow 0 n = 0) ∧ (∀ a : ℤ, fast_pow a 0 = a) ∧
      (∀ a : ℤ, fast_pow a 1 = a) := by
  refine ⟨fun n => by simp [fast_pow], fun a => ?_, fun a => ?_⟩
  · by_cases h : a = 0
    · simp [fast_pow, h]
    · rw [fast_pow, if_neg h, show Int.toNat 0 = 0 from rfl,
        fast_pow_go_base _ _ _ (by norm_num), one_mul]
  · by_cases h : a = 0
    · simp [fast_pow, h]
    · rw [fast_pow, if_neg h, show Int.toNat 1 = 1 from rfl,
        fast_pow_go_base _ _ _ (by norm_num), one_mul]

/- ===== Claim C7 ===== -/

/-- Claim C7 is refuted by the code: for base x = 0 and y ≥ 1 the claim
requires `integer_log` to return `None`, but the arm guarded by
`(0..2).contains(&x)` catches x = 0 and returns `Some((bits(y)-1, _))`:
`integer_log(5, 0) = Some((2, false))`. -/
theorem integer_log_zero_base_returns_some : integer_log 5 0 = some (2, false) := by
  norm_num [integer_log, bits_amount_u64]

/- ===== Claim C8 ===== -/

/-- Claim C8 is refuted by the code: with N = 7 the worker calls
`randint(rand, 6, 6)`, and the draw 0 (a legal outcome of
`random_bits(bits(6) - bits(6) + 1)`, whose range has 2 elements) produces
sigma = 3, outside [6, N-1]: `randint` adds the bit *length* of `min`
(here 3), not `min` itself. -/
theorem randint_below_min_at_seven :
    randint 0 6 (7 - 1) = 3 ∧ randint 0 6 (7 - 1) < 6 ∧
      0 < 2 ^ (bits_amount (7 - 1) - bits_amount 6 + 1) := by
  norm_num [randint, bits_amount]

/- ===== Claim C9 ===== -/

/-- Claim C9: the Montgomery ladder with scalar 1 returns its input point
unchanged: the binary expansion of 1 is the single character '1', the loop
over indices `1..1` is empty, and the returned `q` is the clone of `self`. -/
theorem montgomery_ladder_one (p : MontgomeryPoint) : p.montgomery_ladder 1 = p := by
  simp [MontgomeryPoint.montgomery_ladder, bits, natBits]

/- ===== Claim C10 ===== -/

/-- Claim C10: the `u64` value `b - 2*d` that stage 2 feeds to the ladder
(with `b = b1 - 1`, `d = ⌊√b2⌋`) equals the mathematical difference
`b1 - 1 - 2*d` exactly when `2*⌊√b2⌋ ≤ b1 - 1`; otherwise the wrapping
subtraction underflows and yields a different (huge) value, so the bounds
must satisfy this precondition for the worker to compute the intended
scalar. -/
theorem stage2_t_multiplier_exact_iff (b1 b2 : ℕ) (h1 : 1 ≤ b1) (h2 : b1 < U64)
    (h3 : b2 < U64) :
    ((stage2_t_multiplier b1 b2 : ℤ) = (b1 : ℤ) - 1 - 2 * (Nat.sqrt b2 : ℤ)) ↔
      2 * Nat.sqrt b2 ≤ b1 - 1 := by
  have hd : Nat.sqrt b2 < 2 ^ 32 := by
    refine Nat.sqrt_lt.mpr ?_
    have : (2 : ℕ) ^ 32 * 2 ^ 32 = 2 ^ 64 := by norm_num
    rw [this]
    simpa [U64] using h3
  simp only [stage2_t_multiplier, wsub64, U64] at *
  omega

/-- Witness for claim C10 at `b1 = 10`, `b2 = 4`. -/
theorem stage2_t_multiplier_exact_iff_witness :
    ((stage2_t_multiplier 10 4 : ℤ) = (10 : ℤ) - 1 - 2 * (Nat.sqrt 4 : ℤ)) ↔
      2 * Nat.sqrt 4 ≤ 10 - 1 :=
  stage2_t_multiplier_exact_iff 10 4 (by norm_num) (by norm_num [U64]) (by norm_num [U64])

/-- Invariant of the inner loop of `integer_log`: with `d = x^m` the loop
preserves `yy = y / x^e` and the exactness accumulator characterization
`r = 0 ↔ x^e * yy = y`, strictly decreases `yy` whenever it runs, and none
of the wrapped machine operations overflow for `y < 2^64`. -/
theorem ilog_inner_spec (x y : ℕ) (hx : 2 ≤ x) (hy : y < U64) :
    ∀ fuel yy r e d m, yy ≤ fuel → 1 ≤ yy → yy ≤ y → yy = y / x ^ e →
      (r = 0 ↔ x ^ e * yy = y) → d = x ^ m → 1 ≤ m → d < U64 →
      1 ≤ (ilog_inner x fuel yy r e d m).1 ∧
        (ilog_inner x fuel yy r e d m).1 ≤ yy ∧
        (ilog_inner x fuel yy r e d m).1 ≤ y ∧
        (ilog_inner x fuel yy r e d m).1 = y / x ^ (ilog_inner x fuel yy r e d m).2.2 ∧
        ((ilog_inner x fuel yy r e d m).2.1 = 0 ↔
          x ^ (ilog_inner x fuel yy r e d m).2.2 * (ilog_inner x fuel yy r e d m).1 = y) ∧
        (d ≤ yy → (ilog_inner x fuel yy r e d m).1 < yy) := by
  intro fuel
  induction fuel with
  | zero =>
    intro yy r e d m hfuel h1 hyy hdiv hr hd hm hdU
    omega
  | succ fuel ih =>
    intro yy r e d m hfuel h1 hyy hdiv hr hd hm hdU
    by_cases h : d ≤ yy
    · -- loop body runs
      have hd2 : 2 ≤ d := le_trans hx (hd ▸ Nat.le_self_pow (by omega) x)
      have hq1 : 1 ≤ yy / d := (Nat.one_le_div_iff (by omega)).mpr h
      have hqlt : yy / d < yy := Nat.div_lt_self (by omega) hd2
      have hqy : yy / d ≤ y := le_trans (le_of_lt hqlt) hyy
      have hqfuel : yy / d ≤ fuel := by omega
      -- the exponent prefix is bounded, so the u32 additions do not wrap
      have hxe : x ^ e ≤ y :=
        (Nat.one_le_div_iff (Nat.pos_pow_of_pos e (by omega))).mp (hdiv ▸ h1)
      have he64 : e < 64 := by
        have h2e : (2 : ℕ) ^ e < 2 ^ 64 := by
          calc (2 : ℕ) ^ e ≤ x ^ e := Nat.pow_le_pow_left hx e
          _ ≤ y := hxe
          _ < U64 := hy
        exact (Nat.pow_lt_pow_iff_right (by norm_num)).mp h2e
      have hm64 : m < 64 := by
        have h2m : (2 : ℕ) ^ m < 2 ^ 64 := by
          calc (2 : ℕ) ^ m ≤ x ^ m := Nat.pow_le_pow_left hx m
          _ = d := hd.symm
          _ < U64 := hdU
        exact (Nat.pow_lt_pow_iff_right (by norm_num)).mp h2m
      have hemod : (e + m) % U32 = e + m := Nat.mod_eq_of_lt (by simp only [U32]; omega)
      -- the new quotient is y / x^(e+m)
      have hqdiv : yy / d = y / x ^ (e + m) := by
        rw [hdiv, hd, Nat.div_div_eq_div_mul, ← pow_add]
      -- the new remainder-accumulator characterization
      have hrnew : (r ||| yy % d = 0 ↔ x ^ (e + m) * (yy / d) = y) := by
        constructor
        · intro hlor
          obtain ⟨hr0, hrem0⟩ := (nat_lor_eq_zero_iff _ _).mp hlor
          have hdvd : d ∣ yy := Nat.dvd_of_mod_eq_zero hrem0
          have hyyeq : d * (yy / d) = yy := Nat.mul_div_cancel' hdvd
          calc x ^ (e + m) * (yy / d) = x ^ e * (x ^ m * (yy / d)) := by ring
          _ = x ^ e * (d * (yy / d)) := by rw [hd]
          _ = x ^ e * yy := by rw [hyyeq]
          _ = y := hr.mp hr0
        · intro heq
          have hy2 : y = x ^ e * (x ^ m * (yy / d)) := by rw [← heq]; ring
          have h2 : y / x ^ e = x ^ m * (yy / d) := by
            rw [hy2, Nat.mul_div_cancel_left _ (Nat.pos_pow_of_pos e (by omega))]
          have hyyeq : yy = d * (yy / d) := by
            calc yy = y / x ^ e := hdiv
            _ = x ^ m * (yy / d) := h2
            _ = d * (yy / d) := by rw [hd]
          have hrem0 : yy % d = 0 := by
            conv_lhs => rw [hyyeq]
            exact Nat.mul_mod_right d _
          have hr0 : r = 0 := by
            refine hr.mpr ?_
            calc x ^ e * yy = x ^ e * (d * (yy / d)) := by rw [← hyyeq]
            _ = x ^ (e + m) * (yy / d) := by rw [hd]; ring
            _ = y := heq
          rw [hr0, hrem0]
          rfl
      by_cases hsq : d < yy / d
      · -- squaring branch
        have hdq : d * (yy / d) ≤ yy := by
          rw [mul_comm]
          exact Nat.div_mul_le_self yy d
        have hddlt : d * d < U64 := by
          have h1dd : d * d < d * (yy / d) :=
            mul_lt_mul_of_pos_left hsq (by omega)
          omega
        have hddmod : d * d % U64 = d * d := Nat.mod_eq_of_lt hddlt
        have hmmod : m * 2 % U32 = m * 2 := Nat.mod_eq_of_lt (by simp only [U32]; omega)
        have hddpow : d * d = x ^ (m * 2) := by
          rw [hd, pow_mul, pow_two]
        have step : ilog_inner x (fuel + 1) yy r e d m =
            ilog_inner x fuel (yy / d) (r ||| yy % d) ((e + m) % U32) (d * d % U64)
              (m * 2 % U32) := by
          rw [ilog_inner]
          simp only [if_pos h, if_pos hsq]
        rw [step, hemod, hddmod, hmmod]
        obtain ⟨p1, p2, p3, p4, p5, _⟩ := ih (yy / d) (r ||| yy % d) (e + m) (d * d) (m * 2)
          hqfuel hq1 hqy hqdiv hrnew hddpow (by omega) hddlt
        exact ⟨p1, by omega, p3, p4, p5, fun _ => by omega⟩
      · -- non-squaring branch
        have step : ilog_inner x (fuel + 1) yy r e d m =
            ilog_inner x fuel (yy / d) (r ||| yy % d) ((e + m) % U32) d m := by
          rw [ilog_inner]
          simp only [if_pos h, if_neg hsq]
        rw [step, hemod]
        obtain ⟨p1, p2, p3, p4, p5, _⟩ := ih (yy / d) (r ||| yy % d) (e + m) d m
          hqfuel hq1 hqy hqdiv hrnew hd hm hdU
        exact ⟨p1, by omega, p3, p4, p5, fun _ => by omega⟩
    · -- loop exit
      have step : ilog_inner x (fuel + 1) yy r e d m = (yy, r, e) := by
        rw [ilog_inner]
        simp only [if_neg h]
      rw [step]
      exact ⟨h1, le_refl _, hyy, hdiv, hr, fun hc => absurd hc h⟩

/-- Invariant of the outer loop of `integer_log`: on exit `yy = y / x^e`
is in `[1, x)` and the exactness characterization holds. -/
theorem ilog_outer_spec (x y : ℕ) (hx : 2 ≤ x) (hy : y < U64) :
    ∀ fuel yy r e, yy ≤ fuel → 1 ≤ yy → yy ≤ y → yy = y / x ^ e →
      (r = 0 ↔ x ^ e * yy = y) →
      1 ≤ (ilog_outer x fuel yy r e).1 ∧
        (ilog_outer x fuel yy r e).1 = y / x ^ (ilog_outer x fuel yy r e).2.2 ∧
        ((ilog_outer x fuel yy r e).2.1 = 0 ↔
          x ^ (ilog_outer x fuel yy r e).2.2 * (ilog_outer x fuel yy r e).1 = y) ∧
        (ilog_outer x fuel yy r e).1 < x := by
  intro fuel
  induction fuel with
  | zero =>
    intro yy r e hfuel h1 hyy hdiv hr
    omega
  | succ fuel ih =>
    intro yy r e hfuel h1 hyy hdiv hr
    by_cases h : x ≤ yy
    · have hxU : x < U64 := by omega
      obtain ⟨p1, p2, p3, p4, p5, p6⟩ := ilog_inner_spec x y hx hy yy yy r e x 1
        (le_refl yy) h1 hyy hdiv hr (by rw [pow_one]) (le_refl 1) hxU
      have hlt : (ilog_inner x yy yy r e x 1).1 < yy := p6 h
      have step : ilog_outer x (fuel + 1) yy r e =
          ilog_outer x fuel (ilog_inner x yy yy r e x 1).1
            (ilog_inner x yy yy r e x 1).2.1 (ilog_inner x yy yy r e x 1).2.2 := by
        rw [ilog_outer]
        simp only [if_pos h]
      rw [step]
      exact ih _ _ _ (by omega) p1 p3 p4 p5
    · have step : ilog_outer x (fuel + 1) yy r e = (yy, r, e) := by
        rw [ilog_outer]
        simp only [if_neg h]
      rw [step]
      exact ⟨h1, hdiv, hr, by omega⟩

/-- On its mathematical domain (and within `u64` range) `integer_log`
computes the floor logarithm `Nat.log x y` together with the exactness
flag. -/
theorem integer_log_spec (y x : ℕ) (hx : 2 ≤ x) (hy1 : 1 ≤ y) (hy : y < U64) :
    integer_log y x = some (Nat.log x y, decide (x ^ Nat.log x y = y)) := by
  have hcond1 : ¬ (x = 1 ∨ y = 0) := by omega
  have hcond2 : ¬ (x < 2) := by omega
  obtain ⟨p1, p2, p3, p4⟩ := ilog_outer_spec x y hx hy y y 0 0 (le_refl y) hy1 (le_refl y)
    (by rw [pow_zero, Nat.div_one]) (by simp)
  have hxe : x ^ (ilog_outer x y y 0 0).2.2 ≤ y := by
    have := (Nat.one_le_div_iff (Nat.pos_pow_of_pos _ (by omega))).mp (p2 ▸ p1)
    exact this
  have hyx : y < x ^ ((ilog_outer x y y 0 0).2.2 + 1) := by
    have hlt : y / x ^ (ilog_outer x y y 0 0).2.2 < x := p2 ▸ p4
    have := (Nat.div_lt_iff_lt_mul (Nat.pos_pow_of_pos _ (show 0 < x by omega))).mp hlt
    calc y < x * x ^ (ilog_outer x y y 0 0).2.2 := by omega
    _ = x ^ ((ilog_outer x y y 0 0).2.2 + 1) := by rw [pow_succ]; ring
  have hlog : Nat.log x y = (ilog_outer x y y 0 0).2.2 :=
    Nat.log_eq_of_pow_le_of_lt_pow hxe hyx
  have hiff : ((ilog_outer x y y 0 0).2.1 = 0 ∧ (ilog_outer x y y 0 0).1 = 1) ↔
      x ^ (ilog_outer x y y 0 0).2.2 = y := by
    constructor
    · rintro ⟨hr0, hyy1⟩
      have := p3.mp hr0
      rw [hyy1, mul_one] at this
      exact this
    · intro heq
      have hyy1 : (ilog_outer x y y 0 0).1 = 1 := by
        rw [p2, heq]
        exact Nat.div_self (by omega)
      refine ⟨p3.mpr ?_, hyy1⟩
      rw [hyy1, mul_one]
      exact heq
  rw [integer_log, if_neg hcond1, if_neg hcond2]
  refine congrArg some ?_
  refine Prod.ext ?_ ?_
  · exact hlog.symm
  · simp only []
    rw [hlog]
    exact decide_eq_decide.mpr hiff.symm |>.symm

/- ===== Claim C6 ===== -/

/-- Claim C6: for machine-range x ≥ 2 and y ≥ 1, `integer_log(y, x)`
returns `Some((e, exact))` with e the largest exponent such that
`x^e ≤ y` (equivalently `x^e ≤ y < x^(e+1)`) and `exact` true iff
`x^e = y`. -/
theorem integer_log_correct (x y : ℕ) (hx : 2 ≤ x) (hy1 : 1 ≤ y) (hy : y < U64) :
    ∃ e b, integer_log y x = some (e, b) ∧ x ^ e ≤ y ∧ y < x ^ (e + 1) ∧
      (b = true ↔ x ^ e = y) := by
  refine ⟨Nat.log x y, decide (x ^ Nat.log x y = y), integer_log_spec y x hx hy1 hy, ?_, ?_, ?_⟩
  · exact Nat.pow_log_le_self x (by omega)
  · exact Nat.lt_pow_succ_log_self (by omega) y
  · exact decide_eq_true_iff

/-- Witness for claim C6 at x = 5, y = 125 (e = 3, exact). -/
theorem integer_log_correct_witness :
    ∃ e b, integer_log 125 5 = some (e, b) ∧ 5 ^ e ≤ 125 ∧ 125 < 5 ^ (e + 1) ∧
      (b = true ↔ 5 ^ e = 125) :=
  integer_log_correct 5 125 (by norm_num) (by norm_num) (by norm_num [U64])

/-- The square-and-multiply loop of `fast_pow` computes `acc * a ^ n` for
every counter `n ≥ 1`. -/
theorem fast_pow_go_eq : ∀ n, ∀ a acc : ℤ, 1 ≤ n → fast_pow_go a acc n = acc * a ^ n := by
  intro n
  induction n using Nat.strong_induction_on with
  | _ n ih =>
    intro a acc h1
    by_cases h : 1 < n
    · rw [fast_pow_go, dif_pos h]
      by_cases he : n % 2 = 0
      · rw [if_pos he, ih (n / 2) (Nat.div_lt_self (by omega) (by omega)) (a * a) acc (by omega)]
        have hsq : (a * a) ^ (n / 2) = a ^ (2 * (n / 2)) := by
          rw [show a * a = a ^ 2 from (pow_two a).symm, ← pow_mul]
        have hn : 2 * (n / 2) = n := by omega
        rw [hsq, hn]
      · rw [if_neg he, ih ((n - 1) / 2) (by omega) (a * a) (acc * a) (by omega)]
        have hsq : (a * a) ^ ((n - 1) / 2) = a ^ (2 * ((n - 1) / 2)) := by
          rw [show a * a = a ^ 2 from (pow_two a).symm, ← pow_mul]
        have hn : 2 * ((n - 1) / 2) + 1 = n := by omega
        rw [hsq, mul_assoc, ← pow_succ', hn]
    · have hn1 : n = 1 := by omega
      subst hn1
      rw [fast_pow_go_base _ _ _ (by omega), pow_one]

/-- `fast_pow` computes the power `a ^ n` for every exponent `n ≥ 1`. -/
theorem fast_pow_eq_pow (a : ℤ) (n : ℕ) (h : 1 ≤ n) : fast_pow a (n : ℤ) = a ^ n := by
  rw [fast_pow]
  by_cases ha : a = 0
  · rw [if_pos ha, ha, zero_pow (by omega)]
  · rw [if_neg ha, Int.toNat_natCast, fast_pow_go_eq n a 1 h, one_mul]

/-- The stage-1 loop over `[s, s+n)` multiplies the accumulator by
`p ^ log_p(b1)` for each index `p` flagged by the primes vector, provided
the vector agrees with primality on the range. -/
theorem stage1_go_range (primes : ℕ → Bool) (b1 : ℕ) (hb : 2 ≤ b1) (hbU : b1 < U64)
    (hp : ∀ i, 2 ≤ i → i ≤ b1 → (primes i = true ↔ Nat.Prime i)) :
    ∀ n s (k : ℤ), 2 ≤ s → s + n ≤ b1 + 1 →
      stage1_go primes b1 k (List.range' s n) =
        some (k * ∏ p in (Finset.Ico s (s + n)).filter Nat.Prime, (p : ℤ) ^ Nat.log p b1) := by
  intro n
  induction n with
  | zero =>
    intro s k hs hsn
    simp [stage1_go]
  | succ n ih =>
    intro s k hs hsn
    have hsb : s ≤ b1 := by omega
    have hslt : s < s + (n + 1) := by omega
    have hprodsplit : ∀ f : ℕ → ℤ,
        (∏ p in (Finset.Ico s (s + (n + 1))).filter Nat.Prime, f p) =
          (if Nat.Prime s then f s else 1) *
            ∏ p in (Finset.Ico (s + 1) (s + 1 + n)).filter Nat.Prime, f p := by
      intro f
      rw [Finset.prod_filter, Finset.prod_filter,
        Finset.prod_eq_prod_Ico_succ_bot hslt (fun p => if Nat.Prime p then f p else 1)]
      have : s + (n + 1) = s + 1 + n := by omega
      rw [this]
    rw [List.range'_succ, stage1_go]
    by_cases hps : primes s = true
    · have hsp : Nat.Prime s := (hp s hs hsb).mp hps
      have hs2 : 2 ≤ s := hsp.two_le
      rw [hps, if_pos rfl, integer_log_spec b1 s hs2 (by omega) hbU]
      have hlogpos : 0 < Nat.log s b1 := Nat.log_pos (by omega) hsb
      dsimp only
      rw [fast_pow_eq_pow (s : ℤ) (Nat.log s b1) (by omega)]
      rw [ih (s + 1) (k * (s : ℤ) ^ Nat.log s b1) (by omega) (by omega)]
      rw [hprodsplit, if_pos hsp]
      ring_nf
    · have hnps : ¬ Nat.Prime s := fun hc => hps ((hp s hs hsb).mpr hc)
      have hps2 : primes s = false := by
        cases hq : primes s
        · rfl
        · exact absurd hq hps
      rw [hps2]
      simp only [Bool.false_eq_true, if_false]
      rw [ih (s + 1) k (by omega) (by omega)]
      rw [hprodsplit, if_neg hnps, one_mul]

/- ===== Claim C3 ===== -/

/-- Claim C3: for every B1 ≥ 2 (machine-range) and a primes vector that is
correct on [2, B1] (as the spec's data model requires), the stage-1
exponent k computed by the worker equals the product over the primes
p ≤ B1 of `p ^ e_p`, where `e_p = Nat.log p B1` is the largest exponent
with `p ^ e_p ≤ B1`. -/
theorem stage1_k_eq_prime_power_prod (primes : ℕ → Bool) (b1 : ℕ) (hb : 2 ≤ b1)
    (hbU : b1 < U64)
    (hp : ∀ i, 2 ≤ i → i ≤ b1 → (primes i = true ↔ Nat.Prime i)) :
    stage1_k primes b1 =
      some (∏ p in (Finset.range (b1 + 1)).filter Nat.Prime, (p : ℤ) ^ Nat.log p b1) := by
  rw [stage1_k, stage1_go_range primes b1 hb hbU hp (b1 - 1) 2 1 (le_refl 2) (by omega),
    one_mul]
  have hico : (2 : ℕ) + (b1 - 1) = b1 + 1 := by omega
  rw [hico]
  have hset : (Finset.Ico 2 (b1 + 1)).filter Nat.Prime =
      (Finset.range (b1 + 1)).filter Nat.Prime := by
    ext p
    simp only [Finset.mem_filter, Finset.mem_Ico, Finset.mem_range]
    constructor
    · rintro ⟨⟨h1, h2⟩, h3⟩
      exact ⟨h2, h3⟩
    · rintro ⟨h1, h2⟩
      exact ⟨⟨h2.two_le, h1⟩, h2⟩
  rw [hset]

/-- Witness for claim C3 at B1 = 6 with the correct primality vector on
[2, 6]. -/
theorem stage1_k_eq_prime_power_prod_witness :
    stage1_k (fun i => i == 2 || i == 3 || i == 5) 6 =
      some (∏ p in (Finset.range (6 + 1)).filter Nat.Prime, (p : ℤ) ^ Nat.log p 6) :=
  stage1_k_eq_prime_power_prod (fun i => i == 2 || i == 3 || i == 5) 6 (by norm_num)
    (by norm_num [U64]) (fun i h1 h2 => by interval_cases i <;> simp <;> norm_num)

/-- A gcd with `n > 1` that is not 1 is a divisor of `n` in `(1, n]`. -/
theorem int_gcd_factor (a n : ℤ) (hn : 1 < n) (hne : Int.gcd a n ≠ 1) :
    1 < ((Int.gcd a n : ℕ) : ℤ) ∧ ((Int.gcd a n : ℕ) : ℤ) ∣ n ∧
      ((Int.gcd a n : ℕ) : ℤ) ≤ n := by
  have hdvd : ((Int.gcd a n : ℕ) : ℤ) ∣ n := Int.gcd_dvd_right
  have hg0 : Int.gcd a n ≠ 0 := by
    intro hc
    have := Int.gcd_eq_zero_iff.mp hc
    omega
  have hle : ((Int.gcd a n : ℕ) : ℤ) ≤ n := Int.le_of_dvd (by omega) hdvd
  refine ⟨?_, hdvd, hle⟩
  have h2 : 2 ≤ Int.gcd a n := by omega
  exact_mod_cast h2

set_option maxHeartbeats 1600000 in
/-- Every factor returned by one curve iteration is a divisor of `n`
strictly greater than 1 and at most `n`: the no-inverse path returns
`gcd(4*u^3*v, n)` which is a nontrivial divisor but may equal `n`, while
the stage-1 and stage-2 paths are guarded by `1 < g < n`. -/
theorem curve_attempt_factor (n : ℤ) (primes : ℕ → Bool) (b1 b2 : ℕ) (sigma f : ℤ)
    (hn : 1 < n) (h : curve_attempt n primes b1 b2 sigma = CurveOutcome.factor f) :
    1 < f ∧ f ∣ n ∧ f ≤ n := by
  unfold curve_attempt at h
  dsimp only at h
  split at h
  · rename_i heq
    injection h with hf
    subst hf
    refine int_gcd_factor _ n hn ?_
    intro hc
    rw [invert_mod, if_pos hc] at heq
    exact Option.noConfusion heq
  · rename_i inv heq
    split at h
    · exact CurveOutcome.noConfusion h
    · rename_i k hk
      split at h
      · rename_i hguard
        injection h with hf
        subst hf
        exact ⟨hguard.1, Int.gcd_dvd_right, le_of_lt hguard.2⟩
      · split at h
        · rename_i hguard2
          injection h with hf
          subst hf
          exact ⟨hguard2.1, Int.gcd_dvd_right, le_of_lt hguard2.2⟩
        · exact CurveOutcome.noConfusion h

/-- The curve loop only ever returns factors produced by a curve
iteration. -/
theorem ecm_loop_factor (n : ℤ) (primes : ℕ → Bool) (b1 b2 : ℕ) (sigmaStream : ℕ → ℤ)
    (ff : ℕ → Bool) (hn : 1 < n) :
    ∀ fuel idx f, ecm_loop n primes b1 b2 sigmaStream ff fuel idx = some f →
      1 < f ∧ f ∣ n ∧ f ≤ n := by
  intro fuel
  induction fuel with
  | zero =>
    intro idx f h
    exact Option.noConfusion h
  | succ fuel ih =>
    intro idx f h
    rw [ecm_loop] at h
    split at h
    · exact Option.noConfusion h
    · split at h
      · rename_i f0 heq
        injection h with hf
        subst hf
        exact curve_attempt_factor n primes b1 b2 (sigmaStream idx) f0 hn heq
      · exact Option.noConfusion h
      · exact ih (idx + 1) f h

/- ===== Claim C1 ===== -/

/-- Claim C1 (amended): every factor f returned by `inversionless_ecm`
satisfies 1 < f ≤ N and N mod f = 0, for every curve budget, primes
vector, bounds, sigma override, RNG stream and cancellation-flag
behaviour.  The bound is `f ≤ N`, not `f < N`: the no-inverse path omits
the `g < n` guard the other two paths have (see the counterexample). -/
theorem inversionless_ecm_factor_nontrivial_dvd (n : ℤ) (max_curves : Option ℕ)
    (primes : ℕ → Bool) (b1 b2 : ℕ) (sigma : Option ℤ) (sigmaStream : ℕ → ℤ)
    (ff : ℕ → Bool) (fuel : ℕ) (f : ℤ) (hn : 1 < n)
    (h : inversionless_ecm n max_curves primes b1 b2 sigma sigmaStream ff fuel = some f) :
    1 < f ∧ f ∣ n ∧ f ≤ n := by
  rw [inversionless_ecm.eq_def] at h
  split at h
  · rename_i s
    split at h
    · exact Option.noConfusion h
    · split at h
      · exact Option.noConfusion h
      · split at h
        · rename_i f0 heq
          injection h with hf
          subst hf
          exact curve_attempt_factor n primes b1 b2 s f0 hn heq
        · exact Option.noConfusion h
  · exact ecm_loop_factor n primes b1 b2 sigmaStream ff hn _ 0 f h

/-- Claim C1 counterexample: with N = 28 and sigma override 7 (a value in
[6, N-1]), the Suyama step computes v = 4*7 mod 28 = 0, the inversion of
4*u^3*v = 0 fails, and the worker returns gcd(0, 28) = 28 = N itself,
which is not a factor strictly less than N as the claim requires. -/
theorem inversionless_ecm_returns_n_at_28 :
    inversionless_ecm 28 none (fun _ => true) 2 4 (some 7) (fun _ => 0) (fun _ => false) 1 =
      some 28 ∧ ¬ ((28 : ℤ) < 28) := by
  constructor
  · decide
  · omega

/-- Witness for claim C1: the N = 28 run above returns some factor, and
the amended theorem applies to it. -/
theorem inversionless_ecm_factor_nontrivial_dvd_witness :
    1 < (28 : ℤ) ∧ (28 : ℤ) ∣ 28 ∧ (28 : ℤ) ≤ 28 :=
  inversionless_ecm_factor_nontrivial_dvd 28 none (fun _ => true) 2 4 (some 7)
    (fun _ => 0) (fun _ => false) 1 28 (by norm_num) (by decide)
